import Mathlib

/-!
Verification of the AutoFFmpeg chunked-parallel transcode orchestrator.

This file gives a shallow embedding of the pure logic of the repository:

* `calculateChunks` (AutoFFmpeg/AutoFFmpeg.py, `calculateChunks`): the chunk
  planner that splits a frame list into contiguous ranges;
* the per-codec concurrency cap applied in `OnJobFinished`
  (AutoFFmpeg/AutoFFmpeg.py);
* the task/dependency layout built by `createTaskBasedEncodingJob`
  (AutoFFmpeg/AutoFFmpeg.py);
* the concat-manifest and argument builder `BuildConcatArguments`
  (AutoFFmpegTask/AutoFFmpegTask.py);
* the chunk-cleanup retry loop of `PostRenderTasks`
  (AutoFFmpegTask/AutoFFmpegTask.py), modelled over a simulated filesystem
  in which each file is either absent or present and raises a given number
  of deletion errors before a deletion succeeds.

Frame numbers are embedded as `Int` (Python ints), list indices and counts
as `Nat`.  Python's `sorted` is embedded as `List.insertionSort (· ≤ ·)`
(a stable sort, like CPython's).  Python indexing `frameList[i]` is embedded
as `List.getD i 0`; every use is guarded, in both the source and the
embedding, by a bound that keeps the index in range.
-/

namespace AutoFFmpeg

/-- Embeds `numChunks = max(minChunks, (totalFrames + chunkSize - 1) // chunkSize)`
from `calculateChunks`. -/
def numChunksCalc (totalFrames chunkSize minChunks : Nat) : Nat :=
  max minChunks ((totalFrames + chunkSize - 1) / chunkSize)

/-- Embeds `actualChunkSize = (totalFrames + numChunks - 1) // numChunks`
from `calculateChunks`. -/
def actualChunkSizeCalc (totalFrames numChunks : Nat) : Nat :=
  (totalFrames + numChunks - 1) / numChunks

/-- Embeds `calculateChunks(frameList, chunkSize, minChunks)` from
AutoFFmpeg/AutoFFmpeg.py: returns `none` when the frame list is empty or
shorter than `chunkSize * minChunks`; otherwise sorts the list and slices it
into `numChunks` contiguous index ranges of `actualChunkSize`, emitting for
each non-empty slice the pair of frame numbers at its boundaries. -/
def calculateChunks (frameList : List Int) (chunkSize minChunks : Nat) :
    Option (List (Int × Int)) :=
  if frameList = [] ∨ frameList.length < chunkSize * minChunks then
    none
  else
    let sortedFrames := List.insertionSort (· ≤ ·) frameList
    let totalFrames := sortedFrames.length
    let numChunks := numChunksCalc totalFrames chunkSize minChunks
    let actualChunkSize := actualChunkSizeCalc totalFrames numChunks
    some ((List.range numChunks).filterMap (fun i =>
      let startIdx := i * actualChunkSize
      let endIdx := min ((i + 1) * actualChunkSize) totalFrames
      if startIdx < totalFrames then
        some (sortedFrames.getD startIdx 0, sortedFrames.getD (endIdx - 1) 0)
      else
        none))

/-- Embeds the chunking decision of `OnJobFinished`
(AutoFFmpeg/AutoFFmpeg.py): `chunks = calculateChunks(...)`, then
`if chunks:` submits the task-based encoding job (Python truthiness: a
non-`None`, non-empty list). -/
def usesTaskBasedJob (frameList : List Int) (chunkSize minChunks : Nat) : Bool :=
  match calculateChunks frameList chunkSize minChunks with
  | none => false
  | some chunks => !chunks.isEmpty

/-- Embeds the codec ceiling lookup of `OnJobFinished`: `max_for_codec` is
set for the four known codecs and stays `None` otherwise. -/
def maxForCodec (codec : String) (proresMax h264Max h265Max hapMax : Int) :
    Option Int :=
  if codec = "prores" then some proresMax
  else if codec = "h264" then some h264Max
  else if codec = "h265" then some h265Max
  else if codec = "hap" then some hapMax
  else none

/-- Embeds `if max_for_codec and concurrent_tasks > max_for_codec:
concurrent_tasks = max_for_codec` from `OnJobFinished`.  Python truthiness of
the integer `max_for_codec` is `≠ 0`; a `None` lookup leaves the request
unchanged. -/
def capConcurrentTasks (maxFor : Option Int) (requested : Int) : Int :=
  match maxFor with
  | none => requested
  | some ceiling => if ceiling ≠ 0 ∧ ceiling < requested then ceiling else requested

/-- Embeds the default ceiling `2 if enable_gpu else 4` used for the
`H264MaxConcurrentTasks` and `H265MaxConcurrentTasks` config entries. -/
def defaultGpuAwareMax (enableGpu : Bool) : Int :=
  if enableGpu then 2 else 4

/-- The concurrency value actually submitted for a codec: the configured
ceilings fed through the lookup and the cap. -/
def submittedConcurrency (codec : String)
    (proresMax h264Max h265Max hapMax requested : Int) : Int :=
  capConcurrentTasks (maxForCodec codec proresMax h264Max h265Max hapMax) requested

/-- Embeds the task frame list of `createTaskBasedEncodingJob`:
`range(numChunks + 1)` (chunk tasks `0..numChunks-1` plus the concat task). -/
def taskFrameList (numChunks : Nat) : List Nat :=
  List.range (numChunks + 1)

/-- Embeds `concatTaskFrame = numChunks` from `createTaskBasedEncodingJob`. -/
def concatTaskFrame (numChunks : Nat) : Nat :=
  numChunks

/-- Embeds the dependency list of `createTaskBasedEncodingJob`:
one `concatTaskFrame:chunkFrame` edge per chunk frame in `range(numChunks)`. -/
def frameDependencies (numChunks : Nat) : List (Nat × Nat) :=
  (List.range numChunks).map (fun chunkFrame => (concatTaskFrame numChunks, chunkFrame))

/-- The `FrameDependencies` job-info string:
`','.join(f'{concatTaskFrame}:{chunkFrame}' ...)`. -/
def frameDependenciesString (numChunks : Nat) : String :=
  String.intercalate "," ((frameDependencies numChunks).map
    (fun p => toString p.1 ++ ":" ++ toString p.2))

/-- Embeds Python's `'{:03d}'.format(n)`: decimal, zero-padded to width 3. -/
def pad3 (n : Nat) : String :=
  if n < 10 then "00" ++ toString n
  else if n < 100 then "0" ++ toString n
  else toString n

/-- Embeds the chunk file naming scheme
`'{}_chunk{:03d}.{}'.format(basename, chunkNum, container)` shared by
`BuildChunkArguments`, `BuildConcatArguments` and `PostRenderTasks`. -/
def chunkFileName (basename : String) (chunkNum : Nat) (container : String) : String :=
  basename ++ "_chunk" ++ pad3 chunkNum ++ "." ++ container

/-- Embeds `chunkFile.replace("\\", "/")` from `BuildConcatArguments`: the
pattern and replacement are single characters, so `str.replace` is a
character map. -/
def fixSlashes (s : String) : String :=
  String.mk (s.data.map (fun ch => if ch = '\x5c' then '/' else ch))

/-- Embeds the manifest name `'{}/{}_concat.txt'.format(outputDir, basename)`
from `BuildConcatArguments`. -/
def concatListFileName (outputDir basename : String) : String :=
  outputDir ++ "/" ++ basename ++ "_concat.txt"

/-- Embeds the manifest body written by `BuildConcatArguments`: one
`file '<path>'` line per chunk index `0 ≤ i < numChunks`, the path built
from the deterministic chunk naming scheme, passed through the host's
`os.path.normpath` (kept abstract as the parameter `normpath`, since its
behaviour depends on the worker's operating system) and then rewritten to
forward slashes. -/
def concatManifestLines (normpath : String → String)
    (outputDir basename container : String) (numChunks : Nat) : List String :=
  (List.range numChunks).map (fun i =>
    "file '" ++ fixSlashes (normpath
      (outputDir ++ "/" ++ chunkFileName basename (i + 1) container)) ++ "'\n")

/-- Embeds the transcoder argument string returned by
`BuildConcatArguments` (shared-storage mode, i.e. no local-rendering
redirection): concat-demuxer input on the manifest, optional audio input
with its codec flags, video stream copy, and the final output after `-y`. -/
def BuildConcatArguments (outputDir basename container finalOutput : String)
    (audioFile : Option String) : String :=
  let args := "-f concat -safe 0 -i \"" ++ concatListFileName outputDir basename ++ "\""
  let args := match audioFile with
    | some af =>
        args ++ " -i \"" ++ af ++ "\"" ++
          (if container = "mp4" then " -c:a aac -b:a 192k" else " -c:a pcm_s16le")
    | none => args
  let args := args ++ " -c:v copy -movflags +faststart"
  args ++ " -y \"" ++ finalOutput ++ "\""

/-- Simulated state of one file for the cleanup loop of `PostRenderTasks`:
either the file is absent, or it is present and `os.remove` raises on the
first `failsFor` calls before succeeding (the fake-filesystem model of a
transient file lock; `failsFor ≥ 15` models a file whose deletion fails on
every attempt up to the retry ceiling). -/
inductive FileSim where
  | absent : FileSim
  | present (failsFor : Nat) : FileSim
deriving DecidableEq

/-- Embeds one file's bounded retry loop from `PostRenderTasks`
(`for attempt in range(max_retries)`): each iteration checks existence
(absent counts as already-deleted success, with no `os.remove` call), then
calls `os.remove`, which raises while fewer than `failsFor` calls have been
made.  Returns whether the file ended up deleted together with the number
of `os.remove` calls made. -/
def deleteLoop : FileSim → Nat → Nat → Bool × Nat
  | _, 0, calls => (false, calls)
  | FileSim.absent, _ + 1, calls => (true, calls)
  | FileSim.present failsFor, remaining + 1, calls =>
      if failsFor ≤ calls then (true, calls + 1)
      else deleteLoop (FileSim.present failsFor) remaining (calls + 1)

/-- The cleanup outcome assembled by the tail of `PostRenderTasks`: which
chunk files were reported deleted, which ended up in `failed_chunks`, and
what happened to the manifest. -/
structure CleanupReport where
  deletedChunks : List String
  failedChunks : List String
  manifestDeleted : Bool
  manifestRemoveCalls : Nat
deriving DecidableEq

/-- Embeds the chunk cleanup of `PostRenderTasks` (the `not keepChunks`
branch of the concat task) over a simulated filesystem `fs` keyed by file
name: each chunk file `{basename}_chunk{i+1:03d}.{container}` is processed
independently with a 15-attempt retry loop, failures are collected in
`failed_chunks`, and afterwards the manifest `{basename}_concat.txt` is
processed with a 3-attempt loop. -/
def postRenderCleanup (fs : String → FileSim) (basename container : String)
    (numChunks : Nat) : CleanupReport :=
  let results := (List.range numChunks).map (fun i =>
    (chunkFileName basename (i + 1) container,
     (deleteLoop (fs (chunkFileName basename (i + 1) container)) 15 0).1))
  let manifest := deleteLoop (fs (basename ++ "_concat.txt")) 3 0
  { deletedChunks := (results.filter (fun p => p.2)).map Prod.fst
    failedChunks := (results.filter (fun p => !p.2)).map Prod.fst
    manifestDeleted := manifest.1
    manifestRemoveCalls := manifest.2 }

end AutoFFmpeg

namespace AutoFFmpeg

/-! Concrete frame lists used to instantiate the theorems. -/

/-- 400 frames numbered 1..400 (spec scenario A). -/
def framesA : List Int :=
  (List.range 400).map (fun k => Int.ofNat (k + 1))

/-- 10 frames numbered 1..10 (spec scenario B). -/
def framesB : List Int :=
  (List.range 10).map (fun k => Int.ofNat (k + 1))

/-- Two frames, the smallest input on which `calculateChunks` can return a
one-entry plan (`chunkSize = 2`, `minChunks = 1`). -/
def framesTwo : List Int :=
  [1, 2]

/-- Simulated filesystem for spec scenario E: of three chunk files, the
second is present and raises a deletion error on every attempt up to the
retry ceiling; the others (and the manifest) are absent. -/
def fsStuckSecond : String → FileSim := fun name =>
  if name = chunkFileName "shot" 2 "mp4" then FileSim.present 15 else FileSim.absent

/-- Simulated filesystem in which every file is already absent (second run
of cleanup). -/
def fsAllAbsent : String → FileSim := fun _ => FileSim.absent

end AutoFFmpeg

namespace AutoFFmpeg

/-! Arithmetic facts about the chunk geometry.  Throughout, `T` is the frame
count, `c` the target chunk size, `m` the minimum chunk count,
`n = numChunksCalc T c m` and `s = actualChunkSizeCalc T n`. -/

theorem numChunksCalc_eq (T c m : Nat) (hc : 0 < c) (hlen : c * m ≤ T) :
    numChunksCalc T c m = (T + c - 1) / c := by
  unfold numChunksCalc
  refine Nat.max_eq_right ?_
  rw [Nat.le_div_iff_mul_le hc]
  calc m * c = c * m := Nat.mul_comm m c
    _ ≤ T := hlen
    _ ≤ T + c - 1 := by omega

theorem numChunksCalc_pos (T c m : Nat) (hm : 0 < m) :
    0 < numChunksCalc T c m :=
  lt_of_lt_of_le hm (Nat.le_max_left _ _)

theorem actualChunkSizeCalc_pos (T n : Nat) (hT : 0 < T) (hn : 0 < n) :
    0 < actualChunkSizeCalc T n := by
  unfold actualChunkSizeCalc
  have h : 1 * n ≤ T + n - 1 := by omega
  exact (Nat.le_div_iff_mul_le hn).mpr h

/-- `n * s ≥ T`: the slices cover all indices. -/
theorem totalFrames_le_numChunks_mul (T n : Nat) (hn : 0 < n) :
    T ≤ n * actualChunkSizeCalc T n := by
  unfold actualChunkSizeCalc
  have h := Nat.div_add_mod (T + n - 1) n
  have h2 : (T + n - 1) % n < n := Nat.mod_lt _ hn
  omega

/-- `c * n ≥ T` where `n = ceil(T/c)`. -/
theorem mul_ceilDiv_ge (T c : Nat) (hc : 0 < c) :
    T ≤ c * ((T + c - 1) / c) := by
  have h := Nat.div_add_mod (T + c - 1) c
  have h2 : (T + c - 1) % c < c := Nat.mod_lt _ hc
  omega

/-- `s ≤ c` when `n = ceil(T/c)`: the realised chunk size never exceeds the
target chunk size. -/
theorem actualChunkSizeCalc_le (T c m : Nat) (hc : 0 < c) (hm : 0 < m)
    (hlen : c * m ≤ T) :
    actualChunkSizeCalc T (numChunksCalc T c m) ≤ c := by
  set n := numChunksCalc T c m with hn
  have hnpos : 0 < n := numChunksCalc_pos T c m hm
  have hTn : T ≤ n * c := by
    rw [hn, numChunksCalc_eq T c m hc hlen]
    calc T ≤ c * ((T + c - 1) / c) := mul_ceilDiv_ge T c hc
      _ = (T + c - 1) / c * c := Nat.mul_comm _ _
  unfold actualChunkSizeCalc
  rw [Nat.div_le_iff_le_mul_add_pred hnpos]
  calc T + n - 1 ≤ n * c + (n - 1) := by omega
    _ = n * c + (n - 1) := rfl

/-- `(n-1) * s < T`: every one of the `n` slices is non-empty. -/
theorem pred_numChunks_mul_lt (T c m : Nat) (hc : 0 < c) (hm : 0 < m)
    (hlen : c * m ≤ T) :
    (numChunksCalc T c m - 1) * actualChunkSizeCalc T (numChunksCalc T c m) < T := by
  set n := numChunksCalc T c m with hn
  set s := actualChunkSizeCalc T n with hs
  have hT : 0 < T := lt_of_lt_of_le (Nat.mul_pos hc hm) hlen
  have hnpos : 0 < n := numChunksCalc_pos T c m hm
  have hsc : s ≤ c := actualChunkSizeCalc_le T c m hc hm hlen
  -- c * (n - 1) < T, from n = ceil(T/c)
  have hcn : c * (n - 1) < T := by
    have hdml : (T + c - 1) / c * c ≤ T + c - 1 := Nat.div_mul_le_self _ _
    have hne : n = (T + c - 1) / c := by rw [hn, numChunksCalc_eq T c m hc hlen]
    have hcn' : n * c ≤ T + c - 1 := by rw [hne]; exact hdml
    have hsplit : c * (n - 1) + c = c * n := by
      have : n - 1 + 1 = n := Nat.succ_pred_eq_of_pos hnpos
      calc c * (n - 1) + c = c * (n - 1 + 1) := by ring
        _ = c * n := by rw [this]
    have : c * n = n * c := Nat.mul_comm c n
    omega
  calc (n - 1) * s ≤ (n - 1) * c := Nat.mul_le_mul_left _ hsc
    _ = c * (n - 1) := Nat.mul_comm _ _
    _ < T := hcn

/-- Every slice start index is in range: `i < n → i * s < T`. -/
theorem startIdx_lt (T c m i : Nat) (hc : 0 < c) (hm : 0 < m)
    (hlen : c * m ≤ T) (hi : i < numChunksCalc T c m) :
    i * actualChunkSizeCalc T (numChunksCalc T c m) < T := by
  have h1 : i ≤ numChunksCalc T c m - 1 := by omega
  calc i * actualChunkSizeCalc T (numChunksCalc T c m)
      ≤ (numChunksCalc T c m - 1) * actualChunkSizeCalc T (numChunksCalc T c m) :=
        Nat.mul_le_mul_right _ h1
    _ < T := pred_numChunks_mul_lt T c m hc hm hlen

end AutoFFmpeg

namespace AutoFFmpeg

/-- A sorted list of distinct frames is left unchanged by the sort performed
inside `calculateChunks`. -/
theorem insertionSort_eq_self_of_sorted (F : List Int)
    (hsort : F.Pairwise (· < ·)) :
    List.insertionSort (· ≤ ·) F = F := by
  refine List.Sorted.insertionSort_eq ?_
  exact List.Pairwise.imp (fun h => le_of_lt h) hsort

/-- On a list with all branch conditions true, `filterMap` of a guarded
`some` is a plain `map`. -/
theorem filterMap_guard_eq_map {α : Type} (L : List Nat) (f : Nat → α)
    (p : Nat → Prop) [DecidablePred p] (hp : ∀ i ∈ L, p i) :
    L.filterMap (fun i => if p i then some (f i) else none) = L.map f := by
  induction L with
  | nil => rfl
  | cons a t ih =>
    have ha : p a := hp a (List.mem_cons_self a t)
    have ht : ∀ i ∈ t, p i := fun i hi => hp i (List.mem_cons_of_mem a hi)
    simp [List.filterMap_cons, if_pos ha, ih ht]

/-- Under the viability guard, `calculateChunks` returns exactly one range
per slice index: the closed form of the plan, read off the internally
sorted list. -/
theorem calculateChunks_eq_map_sorted (F : List Int) (c m : Nat)
    (hc : 0 < c) (hm : 0 < m) (hlen : c * m ≤ F.length) :
    calculateChunks F c m =
      some ((List.range (numChunksCalc F.length c m)).map (fun i =>
        ((List.insertionSort (· ≤ ·) F).getD
            (i * actualChunkSizeCalc F.length (numChunksCalc F.length c m)) 0,
         (List.insertionSort (· ≤ ·) F).getD
            (min ((i + 1) * actualChunkSizeCalc F.length (numChunksCalc F.length c m))
              F.length - 1) 0))) := by
  have hT : 0 < F.length := lt_of_lt_of_le (Nat.mul_pos hc hm) hlen
  have hne : ¬(F = [] ∨ F.length < c * m) := by
    push_neg
    constructor
    · intro h; rw [h] at hT; simp at hT
    · omega
  unfold calculateChunks
  rw [if_neg hne]
  dsimp only
  rw [List.length_insertionSort]
  congr 1
  exact filterMap_guard_eq_map _ _ _
    (fun i hi => startIdx_lt F.length c m i hc hm hlen (List.mem_range.mp hi))

/-- The closed form of the plan when the input is already sorted and
distinct. -/
theorem calculateChunks_eq_map (F : List Int) (c m : Nat)
    (hc : 0 < c) (hm : 0 < m) (hsort : F.Pairwise (· < ·))
    (hlen : c * m ≤ F.length) :
    calculateChunks F c m =
      some ((List.range (numChunksCalc F.length c m)).map (fun i =>
        (F.getD (i * actualChunkSizeCalc F.length (numChunksCalc F.length c m)) 0,
         F.getD (min ((i + 1) * actualChunkSizeCalc F.length (numChunksCalc F.length c m))
            F.length - 1) 0))) := by
  rw [calculateChunks_eq_map_sorted F c m hc hm hlen,
    insertionSort_eq_self_of_sorted F hsort]

/-- A returned plan always has exactly `numChunksCalc` entries (for any
input list, sorted or not). -/
theorem calculateChunks_some_length (F : List Int) (c m : Nat)
    (plan : List (Int × Int)) (hc : 0 < c) (hm : 0 < m)
    (hplan : calculateChunks F c m = some plan) :
    plan.length = numChunksCalc F.length c m := by
  have hlen : c * m ≤ F.length := by
    by_cases hg : F = [] ∨ F.length < c * m
    · unfold calculateChunks at hplan
      rw [if_pos hg] at hplan
      exact absurd hplan (by simp)
    · push_neg at hg
      omega
  rw [calculateChunks_eq_map_sorted F c m hc hm hlen] at hplan
  have h := Option.some.inj hplan
  rw [← h, List.length_map, List.length_range]

/-- A `some` result implies the viability guard held. -/
theorem calculateChunks_some_guard (F : List Int) (c m : Nat)
    (plan : List (Int × Int)) (hplan : calculateChunks F c m = some plan) :
    F ≠ [] ∧ c * m ≤ F.length := by
  by_cases hg : F = [] ∨ F.length < c * m
  · unfold calculateChunks at hplan
    rw [if_pos hg] at hplan
    exact absurd hplan (by simp)
  · push_neg at hg
    exact ⟨hg.1, by omega⟩

end AutoFFmpeg

namespace AutoFFmpeg

/-! Slices of a sorted list.  These lemmas relate the value-interval filters
of C2 to contiguous index slices of the sorted frame list. -/

/-- On a list sorted by `≤`, filtering to a closed value interval is a
`dropWhile` of the prefix below the interval followed by a `takeWhile`
within it. -/
theorem filter_interval_eq (lo hi : Int) (F : List Int)
    (hsort : F.Pairwise (· ≤ ·)) :
    F.filter (fun x => decide (lo ≤ x ∧ x ≤ hi)) =
      (F.dropWhile (fun x => decide (x < lo))).takeWhile (fun x => decide (x ≤ hi)) := by
  induction F with
  | nil => rfl
  | cons a t ih =>
    obtain ⟨ha, ht⟩ := List.pairwise_cons.mp hsort
    by_cases hlo : a < lo
    · have h1 : ¬(lo ≤ a ∧ a ≤ hi) := fun h => absurd h.1 (by omega)
      rw [List.filter_cons, if_neg (by simpa using h1),
        List.dropWhile_cons, if_pos (by simpa using hlo)]
      exact ih ht
    · by_cases hhi : a ≤ hi
      · have h1 : lo ≤ a ∧ a ≤ hi := ⟨by omega, hhi⟩
        rw [List.filter_cons, if_pos (by simpa using h1),
          List.dropWhile_cons, if_neg (by simpa using hlo),
          List.takeWhile_cons, if_pos (by simpa using hhi)]
        have hdrop : t.dropWhile (fun x => decide (x < lo)) = t := by
          cases t with
          | nil => rfl
          | cons b t' =>
            have hb : lo ≤ b := le_trans (by omega) (ha b (List.mem_cons_self b t'))
            rw [List.dropWhile_cons, if_neg (by simpa using not_lt.mpr hb)]
        rw [ih ht, hdrop]
      · have h1 : ¬(lo ≤ a ∧ a ≤ hi) := fun h => absurd h.2 hhi
        rw [List.filter_cons, if_neg (by simpa using h1),
          List.dropWhile_cons, if_neg (by simpa using hlo),
          List.takeWhile_cons, if_neg (by simpa using hhi)]
        refine List.filter_eq_nil_iff.mpr ?_
        intro y hy
        have : a ≤ y := ha y hy
        simp only [decide_eq_true_eq]
        intro h
        exact absurd h.2 (by omega)

/-- On a strictly sorted list, dropping the elements below the value at
index `a` drops exactly the first `a` elements. -/
theorem dropWhile_lt_getD (F : List Int) (a : Nat)
    (hsort : F.Pairwise (· < ·)) (ha : a < F.length) :
    F.dropWhile (fun x => decide (x < F.getD a 0)) = F.drop a := by
  induction F generalizing a with
  | nil => simp at ha
  | cons x t ih =>
    obtain ⟨hx, ht⟩ := List.pairwise_cons.mp hsort
    cases a with
    | zero =>
      rw [List.getD_cons_zero, List.dropWhile_cons, if_neg (by simp)]
      rfl
    | succ a' =>
      have ha' : a' < t.length := by simpa using ha
      have hv : x < t.getD a' 0 := by
        rw [List.getD_eq_getElem t 0 ha']
        exact hx _ (List.getElem_mem ha')
      rw [List.getD_cons_succ, List.dropWhile_cons, if_pos (by simpa using hv)]
      exact ih a' ht ha'

/-- On a strictly sorted list, taking the elements up to the value at index
`j` takes exactly the first `j + 1` elements. -/
theorem takeWhile_le_getD (F : List Int) (j : Nat)
    (hsort : F.Pairwise (· < ·)) (hj : j < F.length) :
    F.takeWhile (fun x => decide (x ≤ F.getD j 0)) = F.take (j + 1) := by
  induction F generalizing j with
  | nil => simp at hj
  | cons x t ih =>
    obtain ⟨hx, ht⟩ := List.pairwise_cons.mp hsort
    cases j with
    | zero =>
      rw [List.getD_cons_zero, List.takeWhile_cons, if_pos (by simp)]
      cases t with
      | nil => rfl
      | cons b t' =>
        have hb : x < b := hx b (List.mem_cons_self b t')
        rw [List.takeWhile_cons, if_neg (by simpa using not_le.mpr hb)]
        rfl
    | succ j' =>
      have hj' : j' < t.length := by simpa using hj
      have hv : x < t.getD j' 0 := by
        rw [List.getD_eq_getElem t 0 hj']
        exact hx _ (List.getElem_mem hj')
      rw [List.getD_cons_succ, List.takeWhile_cons, if_pos (by simpa using le_of_lt hv)]
      rw [ih j' ht hj']
      rfl

/-- Strict monotonicity of indexing on a strictly sorted list. -/
theorem getD_lt_getD (F : List Int) {i j : Nat}
    (hsort : F.Pairwise (· < ·)) (hij : i < j) (hj : j < F.length) :
    F.getD i 0 < F.getD j 0 := by
  have hi : i < F.length := lt_trans hij hj
  rw [List.getD_eq_getElem F 0 hi, List.getD_eq_getElem F 0 hj]
  exact List.pairwise_iff_getElem.mp hsort i j hi hj hij

theorem getD_le_getD (F : List Int) {i j : Nat}
    (hsort : F.Pairwise (· < ·)) (hij : i ≤ j) (hj : j < F.length) :
    F.getD i 0 ≤ F.getD j 0 := by
  rcases Nat.lt_or_ge i j with h | h
  · exact le_of_lt (getD_lt_getD F hsort h hj)
  · have : i = j := by omega
    rw [this]

/-- Order of indices is recovered from order of values on a strictly sorted
list. -/
theorem getD_le_getD_iff (F : List Int) {i j : Nat}
    (hsort : F.Pairwise (· < ·)) (hi : i < F.length) (hj : j < F.length) :
    F.getD i 0 ≤ F.getD j 0 ↔ i ≤ j := by
  constructor
  · intro h
    by_contra hij
    push_neg at hij
    have hlt : F.getD j 0 < F.getD i 0 := getD_lt_getD F hsort hij hi
    omega
  · intro h
    exact getD_le_getD F hsort h hj

/-- The interval filter between the values at indices `a ≤ b` of a strictly
sorted list is the contiguous slice of indices `a..b`. -/
theorem filter_interval_getD (F : List Int) (a b : Nat)
    (hsort : F.Pairwise (· < ·)) (hab : a ≤ b) (hb : b < F.length) :
    F.filter (fun x => decide (F.getD a 0 ≤ x ∧ x ≤ F.getD b 0)) =
      (F.drop a).take (b + 1 - a) := by
  have ha : a < F.length := lt_of_le_of_lt hab hb
  rw [filter_interval_eq _ _ F (List.Pairwise.imp (fun h => le_of_lt h) hsort),
    dropWhile_lt_getD F a hsort ha]
  have hba : b - a < (F.drop a).length := by
    rw [List.length_drop]
    omega
  have hgd : (F.drop a).getD (b - a) 0 = F.getD b 0 := by
    rw [List.getD_eq_getElem _ 0 hba, List.getD_eq_getElem F 0 hb, List.getElem_drop]
    congr 1
    omega
  have := takeWhile_le_getD (F.drop a) (b - a) (List.Pairwise.drop hsort) hba
  rw [hgd] at this
  rw [this]
  congr 1
  omega

/-- Concatenating the `n` index slices of width `s` gives back the first
`n * s` elements. -/
theorem flatten_slices (F : List Int) (s : Nat) (n : Nat) :
    ((List.range n).map (fun i => (F.drop (i * s)).take s)).flatten =
      F.take (n * s) := by
  induction n with
  | zero => simp
  | succ k ih =>
    rw [List.range_succ, List.map_append, List.flatten_append, ih]
    have h1 : (List.map (fun i => (F.drop (i * s)).take s) [k]).flatten =
        (F.drop (k * s)).take s := by
      simp
    rw [h1, Nat.succ_mul, List.take_add]

/-- Counting a single value in `range n`. -/
theorem countP_eq_value_range (n v : Nat) :
    (List.range n).countP (fun i => decide (i = v)) = if v < n then 1 else 0 := by
  induction n with
  | zero => rfl
  | succ k ih =>
    rw [List.range_succ, List.countP_append, ih]
    by_cases h : k = v
    · have h2 : List.countP (fun i => decide (i = v)) [k] = 1 := by
        simp [List.countP_cons, h]
      rw [h2, if_neg (by omega), if_pos (by omega)]
    · have h2 : List.countP (fun i => decide (i = v)) [k] = 0 := by
        simp [List.countP_cons, h]
      rw [h2]
      by_cases hv : v < k
      · rw [if_pos hv, if_pos (by omega)]
      · rw [if_neg hv, if_neg (by omega)]

/-- Characterisation of the slice index containing offset `j`. -/
theorem slice_index_eq_div (s i j : Nat) (hs : 0 < s) :
    (i * s ≤ j ∧ j < (i + 1) * s) ↔ j / s = i := by
  have h1 : i ≤ j / s ↔ i * s ≤ j := Nat.le_div_iff_mul_le hs
  have h2 : j / s < i + 1 ↔ j < (i + 1) * s := Nat.div_lt_iff_lt_mul hs
  omega

end AutoFFmpeg

namespace AutoFFmpeg

/-- C1: for positive `targetChunkSize` and `minChunks`, `calculateChunks`
returns `none` exactly when `len(frames) < chunkSize * minChunks`, and
returns a plan whenever `len(frames) ≥ chunkSize * minChunks`. -/
theorem calculateChunks_none_iff (F : List Int) (c m : Nat)
    (hc : 0 < c) (hm : 0 < m) :
    (calculateChunks F c m = none ↔ F.length < c * m) ∧
      (c * m ≤ F.length → ∃ plan, calculateChunks F c m = some plan) := by
  have hguard : (F = [] ∨ F.length < c * m) ↔ F.length < c * m := by
    constructor
    · rintro (h | h)
      · rw [h]; simpa using Nat.mul_pos hc hm
      · exact h
    · exact Or.inr
  constructor
  · unfold calculateChunks
    by_cases h : F = [] ∨ F.length < c * m
    · simp [if_pos h, hguard.mp h]
    · rw [if_neg h]
      simp only [reduceCtorEq, false_iff]
      intro hlt
      exact h (Or.inr hlt)
  · intro hlen
    unfold calculateChunks
    have h : ¬(F = [] ∨ F.length < c * m) := by
      rw [hguard]; omega
    rw [if_neg h]
    exact ⟨_, rfl⟩

theorem framesA_length : framesA.length = 400 := by
  unfold framesA
  rw [List.length_map, List.length_range]

theorem framesA_sorted : framesA.Pairwise (· < ·) := by
  unfold framesA
  refine List.Pairwise.map _ ?_ (List.pairwise_lt_range 400)
  intro a b hab
  exact Int.ofNat_lt.mpr (by omega)

theorem framesA_getD (i : Nat) (hi : i < 400) : framesA.getD i 0 = Int.ofNat (i + 1) := by
  have hi' : i < framesA.length := by
    rw [framesA_length]
    exact hi
  rw [List.getD_eq_getElem framesA 0 hi']
  unfold framesA
  rw [List.getElem_map, List.getElem_range]

/-- Spec scenario A, concretely: 400 frames numbered 1..400 with target
chunk size 150 and minimum 2 chunks yield three ranges, covering 1-indexed
positions 1..134, 135..268 and 269..400. -/
theorem calcChunks_framesA :
    calculateChunks framesA 150 2 = some [(1, 134), (135, 268), (269, 400)] := by
  rw [calculateChunks_eq_map framesA 150 2 (by decide) (by decide) framesA_sorted
    (by rw [framesA_length]; decide)]
  rw [framesA_length]
  have hn : numChunksCalc 400 150 2 = 3 := by decide
  have hs : actualChunkSizeCalc 400 (numChunksCalc 400 150 2) = 134 := by decide
  rw [hs, hn]
  have hrange : List.range 3 = [0, 1, 2] := by decide
  rw [hrange]
  simp only [List.map_cons, List.map_nil]
  have e1 : 0 * 134 = 0 := by norm_num
  have e2 : min ((0 + 1) * 134) 400 - 1 = 133 := by norm_num
  have e3 : 1 * 134 = 134 := by norm_num
  have e4 : min ((1 + 1) * 134) 400 - 1 = 267 := by norm_num
  have e5 : 2 * 134 = 268 := by norm_num
  have e6 : min ((2 + 1) * 134) 400 - 1 = 399 := by norm_num
  rw [e1, e2, e3, e4, e5, e6,
    framesA_getD 0 (by decide), framesA_getD 133 (by decide),
    framesA_getD 134 (by decide), framesA_getD 267 (by decide),
    framesA_getD 268 (by decide), framesA_getD 399 (by decide)]
  decide

/-- C2: when the input frame list is sorted and distinct and a plan is
returned, the plan's ranges partition the frame list: each range is
well-formed (`start ≤ end`), consecutive ranges are strictly increasing and
disjoint, concatenating the frames covered by each range (frames of `F`
between the range's endpoints, inclusive) yields `F` itself, the covered
counts sum to `len(F)`, and every frame lies in exactly one range. -/
theorem calculateChunks_partition (F : List Int) (c m : Nat)
    (plan : List (Int × Int)) (hc : 0 < c) (hm : 0 < m)
    (hsort : F.Pairwise (· < ·))
    (hplan : calculateChunks F c m = some plan) :
    (∀ r ∈ plan, r.1 ≤ r.2) ∧
      plan.Chain' (fun r₁ r₂ => r₁.2 < r₂.1) ∧
      (plan.map (fun r => F.filter (fun x => decide (r.1 ≤ x ∧ x ≤ r.2)))).flatten = F ∧
      (plan.map (fun r => (F.filter (fun x => decide (r.1 ≤ x ∧ x ≤ r.2))).length)).sum
        = F.length ∧
      (∀ x ∈ F, plan.countP (fun r => decide (r.1 ≤ x ∧ x ≤ r.2)) = 1) := by
  obtain ⟨hFne, hlen⟩ := calculateChunks_some_guard F c m plan hplan
  have hplan' := calculateChunks_eq_map F c m hc hm hsort hlen
  rw [hplan] at hplan'
  have hpe := Option.some.inj hplan'
  set T := F.length with hT
  set n := numChunksCalc T c m with hn
  set s := actualChunkSizeCalc T n with hs
  have hTpos : 0 < T := lt_of_lt_of_le (Nat.mul_pos hc hm) hlen
  have hnpos : 0 < n := numChunksCalc_pos T c m hm
  have hspos : 0 < s := actualChunkSizeCalc_pos T n hTpos hnpos
  have hcover : T ≤ n * s := totalFrames_le_numChunks_mul T n hnpos
  have hlast : (n - 1) * s < T := pred_numChunks_mul_lt T c m hc hm hlen
  have hstart : ∀ i, i < n → i * s < T :=
    fun i hi => startIdx_lt T c m i hc hm hlen hi
  have hmulsucc : ∀ i : Nat, (i + 1) * s = i * s + s := fun i => Nat.succ_mul i s
  -- the interval filter of chunk i is the contiguous slice of width s at i*s
  have hslice : ∀ i, i < n →
      F.filter (fun x => decide (F.getD (i * s) 0 ≤ x ∧
          x ≤ F.getD (min ((i + 1) * s) T - 1) 0)) =
        (F.drop (i * s)).take s := by
    intro i hi
    have h1 : i * s < T := hstart i hi
    have h2 : i * s ≤ min ((i + 1) * s) T - 1 := by
      have := hmulsucc i
      omega
    have h3 : min ((i + 1) * s) T - 1 < T := by
      have := hmulsucc i
      omega
    rw [filter_interval_getD F (i * s) (min ((i + 1) * s) T - 1) hsort h2 h3]
    refine List.take_eq_take.mpr ?_
    rw [List.length_drop]
    have := hmulsucc i
    omega
  have hflatten :
      (plan.map (fun r => F.filter (fun x => decide (r.1 ≤ x ∧ x ≤ r.2)))).flatten = F := by
    rw [hpe, List.map_map]
    have hcong : ∀ i ∈ List.range n,
        ((fun r : Int × Int => F.filter (fun x => decide (r.1 ≤ x ∧ x ≤ r.2))) ∘
          (fun i => (F.getD (i * s) 0, F.getD (min ((i + 1) * s) T - 1) 0))) i =
          (F.drop (i * s)).take s := by
      intro i hi
      exact hslice i (List.mem_range.mp hi)
    rw [List.map_congr_left hcong, flatten_slices F s n]
    exact List.take_of_length_le hcover
  refine ⟨?_, ?_, hflatten, ?_, ?_⟩
  · -- each range is well-formed
    intro r hr
    rw [hpe] at hr
    obtain ⟨i, hi, hri⟩ := List.mem_map.mp hr
    have hin : i < n := List.mem_range.mp hi
    rw [← hri]
    have h2 : i * s ≤ min ((i + 1) * s) T - 1 := by
      have h1 := hstart i hin
      have := hmulsucc i
      omega
    have h3 : min ((i + 1) * s) T - 1 < T := by
      have h1 := hstart i hin
      have := hmulsucc i
      omega
    exact getD_le_getD F hsort h2 h3
  · -- consecutive ranges ascend with a gap in values
    rw [hpe, List.chain'_map]
    obtain ⟨k, hk⟩ : ∃ k, n = k + 1 := ⟨n - 1, by omega⟩
    rw [hk]
    refine (List.chain'_range_succ _ k).mpr ?_
    intro i hik
    have hi1 : (i + 1) * s ≤ (n - 1) * s := Nat.mul_le_mul_right s (by omega)
    have hmin : min ((i + 1) * s) T = (i + 1) * s :=
      Nat.min_eq_left (by omega)
    rw [hmin]
    have hlt : (i + 1) * s - 1 < (i + 1) * s := by
      have := hmulsucc i
      omega
    have hjT : (i + 1) * s < T := by omega
    exact getD_lt_getD F hsort hlt hjT
  · -- covered counts sum to the total frame count
    have h := congrArg List.length hflatten
    rw [List.length_flatten, List.map_map] at h
    simpa [Function.comp] using h
  · -- every frame lies in exactly one range
    intro x hx
    obtain ⟨j, hj, hxj⟩ := List.mem_iff_getElem.mp hx
    have hxD : F.getD j 0 = x := by
      rw [List.getD_eq_getElem F 0 hj, hxj]
    rw [hpe, List.countP_map]
    have hcongr : ∀ i ∈ List.range n,
        ((fun r : Int × Int => decide (r.1 ≤ x ∧ x ≤ r.2)) ∘
          (fun i => (F.getD (i * s) 0, F.getD (min ((i + 1) * s) T - 1) 0))) i = true ↔
          (fun i => decide (i = j / s)) i = true := by
      intro i hi
      have hin : i < n := List.mem_range.mp hi
      have h1 : i * s < T := hstart i hin
      have h3 : min ((i + 1) * s) T - 1 < T := by
        have := hmulsucc i
        omega
      simp only [Function.comp_apply, decide_eq_true_eq]
      rw [← hxD, getD_le_getD_iff F hsort h1 hj, getD_le_getD_iff F hsort hj h3]
      have hdiv := slice_index_eq_div s i j hspos
      have := hmulsucc i
      constructor
      · rintro ⟨ha, hb⟩
        have : i * s ≤ j ∧ j < (i + 1) * s := by omega
        exact (hdiv.mp this).symm
      · intro hij
        have := hdiv.mpr hij.symm
        omega
    rw [List.countP_congr hcongr, countP_eq_value_range n (j / s)]
    rw [if_pos ((Nat.div_lt_iff_lt_mul hspos).mpr (by omega))]

/-- Witness for C2 at spec scenario A: concatenating the frames covered by
the three ranges of the 400-frame plan reproduces the frame list. -/
theorem calculateChunks_partition_witness :
    (([((1 : Int), (134 : Int)), (135, 268), (269, 400)]).map
        (fun r => framesA.filter (fun x => decide (r.1 ≤ x ∧ x ≤ r.2)))).flatten
      = framesA := by
  have h := calculateChunks_partition framesA 150 2
    [(1, 134), (135, 268), (269, 400)] (by decide) (by decide)
    framesA_sorted calcChunks_framesA
  exact h.2.2.1

/-- C3: whenever the frame list is long enough to chunk, the plan has
exactly `numChunks = max(minChunks, ceil(total / chunkSize))` ranges, each
taken at consecutive positions of width `actualChunkSize =
ceil(total / numChunks)` of the sorted frame list, the last possibly
shorter; in particular 400 frames with target 150 and minimum 2 give the
three ranges at 1-indexed positions 1..134, 135..268, 269..400. -/
theorem calculateChunks_chunkCount (F : List Int) (c m : Nat)
    (hc : 0 < c) (hm : 0 < m) (hlen : c * m ≤ F.length) :
    (∃ plan, calculateChunks F c m = some plan ∧
        plan.length = numChunksCalc F.length c m ∧
        plan = (List.range (numChunksCalc F.length c m)).map (fun i =>
          ((List.insertionSort (· ≤ ·) F).getD
              (i * actualChunkSizeCalc F.length (numChunksCalc F.length c m)) 0,
           (List.insertionSort (· ≤ ·) F).getD
              (min ((i + 1) * actualChunkSizeCalc F.length (numChunksCalc F.length c m))
                F.length - 1) 0))) ∧
      (∀ i, i + 1 < numChunksCalc F.length c m →
        min ((i + 1) * actualChunkSizeCalc F.length (numChunksCalc F.length c m)) F.length
            - i * actualChunkSizeCalc F.length (numChunksCalc F.length c m)
          = actualChunkSizeCalc F.length (numChunksCalc F.length c m)) ∧
      F.length - (numChunksCalc F.length c m - 1)
          * actualChunkSizeCalc F.length (numChunksCalc F.length c m)
        ≤ actualChunkSizeCalc F.length (numChunksCalc F.length c m) ∧
      calculateChunks framesA 150 2 = some [(1, 134), (135, 268), (269, 400)] := by
  set T := F.length with hT
  set n := numChunksCalc T c m with hn
  set s := actualChunkSizeCalc T n with hs
  have hcover : T ≤ n * s :=
    totalFrames_le_numChunks_mul T n (numChunksCalc_pos T c m hm)
  have hlast : (n - 1) * s < T := pred_numChunks_mul_lt T c m hc hm hlen
  have hmulsucc : ∀ i : Nat, (i + 1) * s = i * s + s := fun i => Nat.succ_mul i s
  refine ⟨⟨_, calculateChunks_eq_map_sorted F c m hc hm hlen, ?_, rfl⟩, ?_, ?_,
    calcChunks_framesA⟩
  · rw [List.length_map, List.length_range]
  · intro i hi
    have hi1 : (i + 1) * s ≤ (n - 1) * s := Nat.mul_le_mul_right s (by omega)
    have hmin : min ((i + 1) * s) T = (i + 1) * s := Nat.min_eq_left (by omega)
    rw [hmin]
    have := hmulsucc i
    omega
  · have hsplit : n * s = (n - 1) * s + s := by
      have h1 := hmulsucc (n - 1)
      have h2 : n - 1 + 1 = n := by
        have := numChunksCalc_pos T c m hm
        omega
      rw [h2] at h1
      exact h1
    omega

/-- Witness for C3 at spec scenario A. -/
theorem calculateChunks_chunkCount_witness :
    calculateChunks framesA 150 2 = some [(1, 134), (135, 268), (269, 400)] ∧
      numChunksCalc 400 150 2 = 3 ∧ actualChunkSizeCalc 400 3 = 134 := by
  have h := calculateChunks_chunkCount framesA 150 2 (by decide) (by decide)
    (by rw [framesA_length]; decide)
  exact ⟨h.2.2.2, by decide, by decide⟩

/-- C4: with a configured positive ceiling, the submitted concurrency equals
the request when the request is within the ceiling and equals the ceiling
otherwise; hence it never exceeds the request nor the ceiling.  For codec
`h265` in GPU mode (prores ceiling 1, h264/h265 GPU default 2, hap 4) a
request of 5 is capped to 2. -/
theorem capConcurrentTasks_spec (ceiling requested : Int) (hpos : 0 < ceiling) :
    (capConcurrentTasks (some ceiling) requested =
        if requested ≤ ceiling then requested else ceiling) ∧
      capConcurrentTasks (some ceiling) requested ≤ requested ∧
      capConcurrentTasks (some ceiling) requested ≤ ceiling ∧
      submittedConcurrency "h265" 1 (defaultGpuAwareMax true)
        (defaultGpuAwareMax true) 4 5 = 2 := by
  have hne : ceiling ≠ 0 := by omega
  have hsome : ∀ r : Int, capConcurrentTasks (some ceiling) r =
      if ceiling ≠ 0 ∧ ceiling < r then ceiling else r := fun _ => rfl
  refine ⟨?_, ?_, ?_, by decide⟩
  · rw [hsome]
    by_cases h : requested ≤ ceiling
    · rw [if_pos h, if_neg (by omega)]
    · rw [if_neg h, if_pos ⟨hne, by omega⟩]
  · rw [hsome]
    by_cases h : ceiling ≠ 0 ∧ ceiling < requested
    · rw [if_pos h]; omega
    · rw [if_neg h]
  · rw [hsome]
    by_cases h : ceiling ≠ 0 ∧ ceiling < requested
    · rw [if_pos h]
    · rw [if_neg h]
      rcases not_and_or.mp h with h1 | h2
      · exact absurd hne h1
      · omega

/-- Witness for C4: ceiling 2, request 5 (spec scenario C). -/
theorem capConcurrentTasks_spec_witness :
    capConcurrentTasks (some 2) 5 = 2 ∧ (2 : Int) ≤ 5 := by
  have h := capConcurrentTasks_spec 2 5 (by decide)
  refine ⟨?_, by decide⟩
  rw [h.1]
  decide

/-- C10: a configured ceiling of 0 is falsy in the Python guard
`if max_for_codec and ...`, so the cap branch is skipped and the requested
concurrency is submitted unchanged, for every request. -/
theorem capConcurrentTasks_zero_ceiling :
    (∀ requested : Int, capConcurrentTasks (some 0) requested = requested) ∧
      (∀ proresMax h264Max hapMax requested : Int,
        submittedConcurrency "h265" proresMax h264Max 0 hapMax requested = requested) := by
  have hzero : ∀ r : Int, capConcurrentTasks (some 0) r = r := by
    intro r
    have h : capConcurrentTasks (some 0) r =
        if (0 : Int) ≠ 0 ∧ (0 : Int) < r then (0 : Int) else r := rfl
    rw [h, if_neg (by simp)]
  constructor
  · exact hzero
  · intro proresMax h264Max hapMax requested
    have hlook : maxForCodec "h265" proresMax h264Max 0 hapMax = some 0 := by
      unfold maxForCodec
      rw [if_neg (by decide), if_neg (by decide), if_pos rfl]
    unfold submittedConcurrency
    rw [hlook, hzero]

/-- C5: the task-based job built by `createTaskBasedEncodingJob` has task
identifiers `0..N` with the join (concat) task at identifier `N`, and its
dependency list has exactly `N` edges, one `(N, i)` edge per encode task
`i < N` and no others, with no duplicates. -/
theorem frameDependencies_spec (N : Nat) (_hN : 1 ≤ N) :
    (∀ t, t ∈ taskFrameList N ↔ t ≤ N) ∧
      concatTaskFrame N = N ∧
      (frameDependencies N).length = N ∧
      (∀ p : Nat × Nat, p ∈ frameDependencies N ↔ p.1 = N ∧ p.2 < N) ∧
      (frameDependencies N).Nodup := by
  refine ⟨?_, rfl, ?_, ?_, ?_⟩
  · intro t
    unfold taskFrameList
    rw [List.mem_range]
    omega
  · unfold frameDependencies
    rw [List.length_map, List.length_range]
  · intro p
    unfold frameDependencies concatTaskFrame
    constructor
    · intro hp
      obtain ⟨i, hi, hip⟩ := List.mem_map.mp hp
      rw [← hip]
      exact ⟨rfl, List.mem_range.mp hi⟩
    · rintro ⟨h1, h2⟩
      refine List.mem_map.mpr ⟨p.2, List.mem_range.mpr h2, ?_⟩
      rw [← h1]
  · unfold frameDependencies
    refine List.Nodup.map ?_ (List.nodup_range N)
    intro a b hab
    exact (Prod.mk.injEq _ _ _ _).mp hab |>.2

/-- Witness for C5 at `N = 3`: dependency edges `(3,0), (3,1), (3,2)`. -/
theorem frameDependencies_spec_witness :
    (frameDependencies 3).length = 3 ∧ ((3, 1) ∈ frameDependencies 3 ↔ 3 = 3 ∧ 1 < 3) := by
  have h := frameDependencies_spec 3 (by decide)
  exact ⟨h.2.2.1, h.2.2.2.1 (3, 1)⟩

/-- Witness for C1 at spec scenario B (10 frames, chunk size 150, min chunks
2: not viable) and scenario A (400 frames: viable). -/
theorem calculateChunks_none_iff_witness :
    calculateChunks framesB 150 2 = none ∧
      ∃ plan, calculateChunks framesA 150 2 = some plan := by
  have hB : framesB.length = 10 := by
    simp only [framesB, List.length_map, List.length_range]
  have hA : framesA.length = 400 := by
    simp only [framesA, List.length_map, List.length_range]
  constructor
  · exact (calculateChunks_none_iff framesB 150 2 (by decide) (by decide)).1.mpr
      (by rw [hB]; decide)
  · exact (calculateChunks_none_iff framesA 150 2 (by decide) (by decide)).2
      (by rw [hA]; decide)

end AutoFFmpeg

namespace AutoFFmpeg

/-! Lemmas about the simulated cleanup loop. -/

/-- While every `os.remove` call raises, the retry loop exhausts its
attempts and reports failure, one call per attempt. -/
theorem deleteLoop_present_fails (f r c : Nat) (h : c + r ≤ f) :
    deleteLoop (FileSim.present f) r c = (false, c + r) := by
  induction r generalizing c with
  | zero => simp [deleteLoop]
  | succ k ih =>
    simp only [deleteLoop]
    rw [if_neg (by omega), ih (c + 1) (by omega)]
    have hc : c + 1 + k = c + (k + 1) := by omega
    rw [hc]

/-- Filtering `range N` to a single value below `N` keeps exactly it. -/
theorem filter_value_range (N v : Nat) (h : v < N) :
    (List.range N).filter (fun i => decide (i = v)) = [v] := by
  induction N with
  | zero => omega
  | succ k ih =>
    rw [List.range_succ, List.filter_append]
    by_cases hv : v < k
    · rw [ih hv]
      have hk : List.filter (fun i => decide (i = v)) [k] = [] := by
        simp only [List.filter_cons, List.filter_nil, decide_eq_true_eq]
        rw [if_neg (by omega)]
      rw [hk, List.append_nil]
    · have hv' : v = k := by omega
      subst hv'
      have h1 : List.filter (fun i => decide (i = v)) (List.range v) = [] := by
        refine List.filter_eq_nil_iff.mpr ?_
        intro a ha
        have := List.mem_range.mp ha
        simp only [decide_eq_true_eq]
        omega
      rw [h1]
      simp

theorem postRenderCleanup_failed_eq (fs : String → FileSim)
    (basename container : String) (N : Nat) :
    (postRenderCleanup fs basename container N).failedChunks =
      (((List.range N).map (fun i =>
        (chunkFileName basename (i + 1) container,
         (deleteLoop (fs (chunkFileName basename (i + 1) container)) 15 0).1))).filter
          (fun p => !p.2)).map Prod.fst := rfl

theorem postRenderCleanup_deleted_eq (fs : String → FileSim)
    (basename container : String) (N : Nat) :
    (postRenderCleanup fs basename container N).deletedChunks =
      (((List.range N).map (fun i =>
        (chunkFileName basename (i + 1) container,
         (deleteLoop (fs (chunkFileName basename (i + 1) container)) 15 0).1))).filter
          (fun p => p.2)).map Prod.fst := rfl

theorem postRenderCleanup_manifest_eq (fs : String → FileSim)
    (basename container : String) (N : Nat) :
    (postRenderCleanup fs basename container N).manifestDeleted =
        (deleteLoop (fs (basename ++ "_concat.txt")) 3 0).1 ∧
      (postRenderCleanup fs basename container N).manifestRemoveCalls =
        (deleteLoop (fs (basename ++ "_concat.txt")) 3 0).2 :=
  ⟨rfl, rfl⟩

end AutoFFmpeg

namespace AutoFFmpeg

/-- C7: if one chunk file's deletion raises on every attempt up to the
retry ceiling, cleanup still processes every other chunk file, records
exactly the failing file in the failed list, reports the others as deleted,
and afterwards still attempts the manifest deletion; the loop is total, so
no per-file error escapes it. -/
theorem postRenderCleanup_isolates_failure (fs : String → FileSim)
    (basename container : String) (N j failsFor : Nat)
    (hj : j < N)
    (hfail : fs (chunkFileName basename (j + 1) container) = FileSim.present failsFor)
    (hge : 15 ≤ failsFor)
    (hok : ∀ i, i < N → i ≠ j →
      (deleteLoop (fs (chunkFileName basename (i + 1) container)) 15 0).1 = true) :
    (postRenderCleanup fs basename container N).failedChunks
        = [chunkFileName basename (j + 1) container] ∧
      (postRenderCleanup fs basename container N).deletedChunks
        = ((List.range N).filter (fun i => !decide (i = j))).map
            (fun i => chunkFileName basename (i + 1) container) ∧
      deleteLoop (fs (chunkFileName basename (j + 1) container)) 15 0 = (false, 15) ∧
      (fs (basename ++ "_concat.txt") = FileSim.absent →
        (postRenderCleanup fs basename container N).manifestDeleted = true ∧
        (postRenderCleanup fs basename container N).manifestRemoveCalls = 0) ∧
      (fs (basename ++ "_concat.txt") = FileSim.present 0 →
        (postRenderCleanup fs basename container N).manifestDeleted = true ∧
        (postRenderCleanup fs basename container N).manifestRemoveCalls = 1) := by
  have hjloop : deleteLoop (fs (chunkFileName basename (j + 1) container)) 15 0
      = (false, 15) := by
    rw [hfail]
    have h := deleteLoop_present_fails failsFor 15 0 (by omega)
    simpa using h
  refine ⟨?_, ?_, hjloop, ?_, ?_⟩
  · rw [postRenderCleanup_failed_eq, List.filter_map, List.map_map]
    have hcong : ∀ i ∈ List.range N,
        ((fun p : String × Bool => !p.2) ∘ (fun i =>
          (chunkFileName basename (i + 1) container,
           (deleteLoop (fs (chunkFileName basename (i + 1) container)) 15 0).1))) i
          = (fun i => decide (i = j)) i := by
      intro i hi
      have hiN : i < N := List.mem_range.mp hi
      by_cases hij : i = j
      · subst hij
        simp [Function.comp, hjloop]
      · simp [Function.comp, hok i hiN hij, hij]
    rw [List.filter_congr hcong, filter_value_range N j hj]
    rfl
  · rw [postRenderCleanup_deleted_eq, List.filter_map, List.map_map]
    have hcong : ∀ i ∈ List.range N,
        ((fun p : String × Bool => p.2) ∘ (fun i =>
          (chunkFileName basename (i + 1) container,
           (deleteLoop (fs (chunkFileName basename (i + 1) container)) 15 0).1))) i
          = (fun i => !decide (i = j)) i := by
      intro i hi
      have hiN : i < N := List.mem_range.mp hi
      by_cases hij : i = j
      · subst hij
        simp [Function.comp, hjloop]
      · simp [Function.comp, hok i hiN hij, hij]
    rw [List.filter_congr hcong]
    exact List.map_congr_left (fun i _ => rfl)
  · intro hman
    have h := postRenderCleanup_manifest_eq fs basename container N
    rw [h.1, h.2, hman]
    exact ⟨rfl, rfl⟩
  · intro hman
    have h := postRenderCleanup_manifest_eq fs basename container N
    rw [h.1, h.2, hman]
    exact ⟨rfl, rfl⟩

/-- Witness for C7 at spec scenario E: three chunk files, the second stuck;
files 1 and 3 reported deleted, file 2 the only failure, manifest deletion
still performed (here: found already absent with no remove call). -/
theorem postRenderCleanup_isolates_failure_witness :
    (postRenderCleanup fsStuckSecond "shot" "mp4" 3).failedChunks
        = ["shot_chunk002.mp4"] ∧
      (postRenderCleanup fsStuckSecond "shot" "mp4" 3).deletedChunks
        = ["shot_chunk001.mp4", "shot_chunk003.mp4"] ∧
      (postRenderCleanup fsStuckSecond "shot" "mp4" 3).manifestDeleted = true := by
  have h := postRenderCleanup_isolates_failure fsStuckSecond "shot" "mp4" 3 1 15
    (by decide) (by decide) (by decide) (by decide)
  refine ⟨?_, ?_, ?_⟩
  · rw [h.1]
    decide
  · rw [h.2.1]
    decide
  · exact (h.2.2.2.1 (by decide)).1

/-- C8: cleanup is idempotent: when every chunk file and the manifest are
already absent, every file is treated as a success on its first existence
check with zero `os.remove` calls (no deletion attempt, no retries), the
failed list is empty, every chunk is reported deleted, and the manifest
pass also succeeds without a remove call. -/
theorem postRenderCleanup_idempotent (fs : String → FileSim)
    (basename container : String) (N : Nat)
    (habs : ∀ i, i < N → fs (chunkFileName basename (i + 1) container) = FileSim.absent)
    (hman : fs (basename ++ "_concat.txt") = FileSim.absent) :
    (postRenderCleanup fs basename container N).failedChunks = [] ∧
      (postRenderCleanup fs basename container N).deletedChunks
        = (List.range N).map (fun i => chunkFileName basename (i + 1) container) ∧
      (∀ i, i < N →
        deleteLoop (fs (chunkFileName basename (i + 1) container)) 15 0 = (true, 0)) ∧
      (postRenderCleanup fs basename container N).manifestDeleted = true ∧
      (postRenderCleanup fs basename container N).manifestRemoveCalls = 0 := by
  have hloop : ∀ i, i < N →
      deleteLoop (fs (chunkFileName basename (i + 1) container)) 15 0 = (true, 0) := by
    intro i hi
    rw [habs i hi]
    decide
  have hmanifest := postRenderCleanup_manifest_eq fs basename container N
  refine ⟨?_, ?_, hloop, ?_, ?_⟩
  · rw [postRenderCleanup_failed_eq]
    have hfil : (((List.range N).map (fun i =>
        (chunkFileName basename (i + 1) container,
         (deleteLoop (fs (chunkFileName basename (i + 1) container)) 15 0).1))).filter
          (fun p => !p.2)) = [] := by
      refine List.filter_eq_nil_iff.mpr ?_
      intro p hp
      obtain ⟨i, hi, hpi⟩ := List.mem_map.mp hp
      have hiN : i < N := List.mem_range.mp hi
      rw [← hpi]
      simp [hloop i hiN]
    rw [hfil]
    rfl
  · rw [postRenderCleanup_deleted_eq]
    have hfil : (((List.range N).map (fun i =>
        (chunkFileName basename (i + 1) container,
         (deleteLoop (fs (chunkFileName basename (i + 1) container)) 15 0).1))).filter
          (fun p => p.2))
        = ((List.range N).map (fun i =>
          (chunkFileName basename (i + 1) container,
           (deleteLoop (fs (chunkFileName basename (i + 1) container)) 15 0).1))) := by
      refine List.filter_eq_self.mpr ?_
      intro p hp
      obtain ⟨i, hi, hpi⟩ := List.mem_map.mp hp
      have hiN : i < N := List.mem_range.mp hi
      rw [← hpi]
      simp [hloop i hiN]
    rw [hfil, List.map_map]
    exact List.map_congr_left (fun i _ => rfl)
  · rw [hmanifest.1, hman]
    decide
  · rw [hmanifest.2, hman]
    decide

/-- Witness for C8: three already-absent chunk files and an absent
manifest: empty failed list, all reported deleted, no remove calls. -/
theorem postRenderCleanup_idempotent_witness :
    (postRenderCleanup fsAllAbsent "shot" "mp4" 3).failedChunks = [] ∧
      (postRenderCleanup fsAllAbsent "shot" "mp4" 3).manifestRemoveCalls = 0 := by
  have h := postRenderCleanup_idempotent fsAllAbsent "shot" "mp4" 3
    (by intro i _; rfl) rfl
  exact ⟨h.1, h.2.2.2.2⟩

end AutoFFmpeg

namespace AutoFFmpeg

/-- C6: with no audio configured, the manifest named
`{basename}_concat.txt` holds exactly `N` lines, the `i`-th being
`file '<path of chunk i+1>'` in ascending chunk order with every backslash
rewritten to a forward slash (for any host `normpath`), and the returned
transcoder arguments read the manifest through the concat demuxer, use
video stream copy (`-c:v copy`) and write the final output after `-y`. -/
theorem buildConcatArguments_spec (normpath : String → String)
    (outputDir basename container finalOutput : String) (N : Nat) :
    (concatManifestLines normpath outputDir basename container N).length = N ∧
      (∀ i, i < N →
        (concatManifestLines normpath outputDir basename container N).getD i ""
          = "file '" ++ fixSlashes (normpath
              (outputDir ++ "/" ++ chunkFileName basename (i + 1) container)) ++ "'\n") ∧
      (∀ s : String, ∀ ch ∈ (fixSlashes s).data, ch ≠ '\x5c') ∧
      concatListFileName outputDir basename
        = outputDir ++ "/" ++ basename ++ "_concat.txt" ∧
      BuildConcatArguments outputDir basename container finalOutput none
        = ("-f concat -safe 0 -i \"" ++ concatListFileName outputDir basename ++ "\""
            ++ " -c:v copy -movflags +faststart") ++ " -y \"" ++ finalOutput ++ "\"" ∧
      (∃ pre post : String,
        BuildConcatArguments outputDir basename container finalOutput none
          = pre ++ " -c:v copy" ++ post) := by
  refine ⟨?_, ?_, ?_, rfl, rfl, ?_⟩
  · unfold concatManifestLines
    rw [List.length_map, List.length_range]
  · intro i hi
    unfold concatManifestLines
    have hi' : i < ((List.range N).map (fun i =>
        "file '" ++ fixSlashes (normpath
          (outputDir ++ "/" ++ chunkFileName basename (i + 1) container)) ++ "'\n")).length := by
      rw [List.length_map, List.length_range]
      exact hi
    rw [List.getD_eq_getElem _ "" hi', List.getElem_map, List.getElem_range]
  · intro s ch hch
    have hdata : (fixSlashes s).data
        = s.data.map (fun c => if c = '\x5c' then '/' else c) := rfl
    rw [hdata] at hch
    obtain ⟨c, _, hc⟩ := List.mem_map.mp hch
    by_cases h : c = '\x5c'
    · rw [if_pos h] at hc
      rw [← hc]
      decide
    · rw [if_neg h] at hc
      rw [← hc]
      exact h
  · refine ⟨"-f concat -safe 0 -i \"" ++ concatListFileName outputDir basename ++ "\"",
      " -movflags +faststart" ++ " -y \"" ++ finalOutput ++ "\"", ?_⟩
    have hsplit : (" -c:v copy -movflags +faststart" : String)
        = " -c:v copy" ++ " -movflags +faststart" := by decide
    show ("-f concat -safe 0 -i \"" ++ concatListFileName outputDir basename ++ "\""
        ++ " -c:v copy -movflags +faststart") ++ " -y \"" ++ finalOutput ++ "\"" = _
    rw [hsplit]
    simp only [String.append_assoc]

/-- Witness for C6 at spec scenario D: three chunks, identity path
normalisation, concrete names. -/
theorem buildConcatArguments_spec_witness :
    (concatManifestLines (fun s => s) "out" "shot" "mp4" 3).length = 3 ∧
      (concatManifestLines (fun s => s) "out" "shot" "mp4" 3).getD 0 ""
        = "file 'out/shot_chunk001.mp4'\n" ∧
      BuildConcatArguments "out" "shot" "mp4" "out/shot.mp4" none
        = ("-f concat -safe 0 -i \"" ++ concatListFileName "out" "shot" ++ "\""
            ++ " -c:v copy -movflags +faststart") ++ " -y \"" ++ "out/shot.mp4" ++ "\"" := by
  have h := buildConcatArguments_spec (fun s => s) "out" "shot" "mp4" "out/shot.mp4" 3
  refine ⟨h.1, ?_, h.2.2.2.2.1⟩
  rw [h.2.1 0 (by decide)]
  decide

/-- C9 counterexample: `calculateChunks([1, 2], 2, 1)` yields the one-entry
plan `[(1, 2)]`, yet the orchestrator's `if chunks:` guard is satisfied, so
the task-based (chunked, multi-task) job is still submitted: the caller
performs no one-entry check before invoking the builder. -/
theorem usesTaskBasedJob_single_chunk_counterexample :
    calculateChunks framesTwo 2 1 = some [(1, 2)] ∧
      usesTaskBasedJob framesTwo 2 1 = true := by
  constructor
  · decide
  · decide

/-- C9 (amended): the orchestrator submits the task-based job exactly when
`calculateChunks` returns a plan (its guard checks only Python truthiness,
i.e. non-`None` and non-empty), including a one-entry plan; since every
plan has at least `minChunks` entries, a one-entry plan can only arise when
`minChunks ≤ 1`, so no one-entry chunked job is submitted in the
`minChunks ≥ 2` regime. -/
theorem usesTaskBasedJob_iff (F : List Int) (c m : Nat)
    (hc : 0 < c) (hm : 0 < m) :
    (usesTaskBasedJob F c m = true ↔ (calculateChunks F c m).isSome) ∧
      (∀ plan, calculateChunks F c m = some plan → m ≤ plan.length) := by
  have hlen : ∀ plan, calculateChunks F c m = some plan → m ≤ plan.length := by
    intro plan hplan
    rw [calculateChunks_some_length F c m plan hc hm hplan]
    exact Nat.le_max_left _ _
  refine ⟨?_, hlen⟩
  unfold usesTaskBasedJob
  cases hres : calculateChunks F c m with
  | none => simp
  | some plan =>
    simp only [Option.isSome_some, iff_true]
    have hm' : m ≤ plan.length := hlen plan hres
    have : plan ≠ [] := by
      intro hnil
      rw [hnil] at hm'
      simp at hm'
      omega
    simp [List.isEmpty_iff, this]

/-- Witness for C9 (amended) at the counterexample input. -/
theorem usesTaskBasedJob_iff_witness :
    usesTaskBasedJob framesTwo 2 1 = true ∧ (1 : Nat) ≤ 1 := by
  refine ⟨?_, le_refl 1⟩
  exact (usesTaskBasedJob_iff framesTwo 2 1 (by decide) (by decide)).1.mpr (by decide)

end AutoFFmpeg
